import Mathlib

/-!
TrivialKalmanFilter: a shallow embedding of `src/TrivialKalmanFilter.h`, the
header-only unidimensional Kalman filter `template <typename D> class TrivialKalmanFilter`.

The arithmetic type `D` of the template is kept as a type parameter.  The
definitions only use the constants `0`, `1` and the operations `+`, `-`, `*`,
`/` and `pow` of `D`, so the same definitions run on an exact field (`ℚ`, `ℝ`)
and on `F64`, a model of IEEE-754 binary64 (`double`) with rounding to nearest,
overflow to infinity and NaN.  Properties stated for a field are about exact
arithmetic (in a Lean field `x / 0 = 0`); what the rounded arithmetic does
differently is shown on `F64`.
-/

/-! ## IEEE-754 binary64, the arithmetic of `D = double` -/

/-- A value of IEEE-754 binary64 (`double`).  `finite neg m e` stands for
`(-1)^neg * m * 2^e`; the values produced by the operations below are in
canonical form: `m < 2^53`, `-1074 ≤ e ≤ 971`, and `2^52 ≤ m` unless
`e = -1074` (subnormal numbers and the two zeros, `m = 0`). -/
inductive F64 where
  | finite (neg : Bool) (m : ℕ) (e : ℤ)
  | inf (neg : Bool)
  | nan
deriving Repr, DecidableEq

namespace F64

/-- Number of binary digits of `n`, for `n < 2 ^ fuel`. -/
def bitsAux : ℕ → ℕ → ℕ
  | 0, _ => 0
  | fuel + 1, n => if n = 0 then 0 else bitsAux fuel (n / 2) + 1

/-- Number of binary digits of `n` (`0` for `n = 0`). -/
def bits (n : ℕ) : ℕ :=
  bitsAux n n

/-- Rounds the exact value `(-1)^neg * m * 2^e` to binary64: to the nearest
representable number, ties to the even mantissa, and to infinity when the
rounded value exceeds the largest finite number. -/
def round (neg : Bool) (m : ℕ) (e : ℤ) : F64 :=
  if m = 0 then finite neg 0 (-1074)
  else
    let e1 : ℤ := max (e + (bits m : ℤ) - 53) (-1074)
    if e1 ≤ e then
      if 971 < e1 then inf neg else finite neg (m * 2 ^ (e - e1).toNat) e1
    else
      let s : ℕ := (e1 - e).toNat
      let q : ℕ := m / 2 ^ s
      let r : ℕ := m % 2 ^ s
      let half : ℕ := 2 ^ (s - 1)
      let q1 : ℕ := if half < r ∨ (r = half ∧ q % 2 = 1) then q + 1 else q
      let m2 : ℕ := if q1 = 2 ^ 53 then 2 ^ 52 else q1
      let e2 : ℤ := if q1 = 2 ^ 53 then e1 + 1 else e1
      if 971 < e2 then inf neg else finite neg m2 e2

/-- The signed integer `(-1)^neg * m`. -/
def signed (neg : Bool) (m : ℕ) : ℤ :=
  if neg then -(m : ℤ) else (m : ℤ)

/-- The natural number `n` as a binary64 value (rounded when `n ≥ 2^53`). -/
def ofNat (n : ℕ) : F64 :=
  round false n 0

/-- The power of two `2^e` as a binary64 value. -/
def pow2 (e : ℤ) : F64 :=
  round false 1 e

/-- Sign change: `-x`. -/
def neg : F64 → F64
  | finite s m e => finite (!s) m e
  | inf s => inf (!s)
  | nan => nan

/-- Absolute value: `fabs(x)`. -/
def abs : F64 → F64
  | finite _ m e => finite false m e
  | inf _ => inf false
  | nan => nan

/-- Addition `x + y`: the exact sum, rounded.  An exact zero sum is `+0`
unless both operands are negative (zeros). -/
def add : F64 → F64 → F64
  | nan, _ => nan
  | _, nan => nan
  | inf s, inf t => if s = t then inf s else nan
  | inf s, finite _ _ _ => inf s
  | finite _ _ _, inf t => inf t
  | finite sa ma ea, finite sb mb eb =>
    let e : ℤ := min ea eb
    let sum : ℤ := signed sa (ma * 2 ^ (ea - e).toNat) + signed sb (mb * 2 ^ (eb - e).toNat)
    if sum = 0 then finite (sa && sb) 0 (-1074)
    else round (decide (sum < 0)) sum.natAbs e

/-- Subtraction `x - y`, which is `x + (-y)`. -/
def sub (x y : F64) : F64 :=
  add x (neg y)

/-- Multiplication `x * y`: the exact product, rounded; `inf * 0` is NaN. -/
def mul : F64 → F64 → F64
  | nan, _ => nan
  | _, nan => nan
  | inf s, inf t => inf (xor s t)
  | inf s, finite t m _ => if m = 0 then nan else inf (xor s t)
  | finite s m _, inf t => if m = 0 then nan else inf (xor s t)
  | finite sa ma ea, finite sb mb eb => round (xor sa sb) (ma * mb) (ea + eb)

/-- Division `x / y`: the exact quotient, rounded.  The quotient of the
mantissas is computed with at least 56 binary digits and a sticky last digit,
which rounds like the exact quotient.  `0 / 0` and `inf / inf` are NaN, a
non-zero number over zero is an infinity. -/
def div : F64 → F64 → F64
  | nan, _ => nan
  | _, nan => nan
  | inf _, inf _ => nan
  | inf s, finite t _ _ => inf (xor s t)
  | finite s _ _, inf t => finite (xor s t) 0 (-1074)
  | finite sa ma ea, finite sb mb eb =>
    if mb = 0 then
      if ma = 0 then nan else inf (xor sa sb)
    else
      let k : ℕ := bits mb + 55
      let n : ℕ := ma * 2 ^ k
      let sticky : ℕ := if n % mb = 0 then 0 else 1
      round (xor sa sb) (2 * (n / mb) + sticky) (ea - eb - (k : ℤ) - 1)

/-- The comparison `x < y` of binary64: false when an operand is NaN. -/
def lt : F64 → F64 → Bool
  | nan, _ => false
  | _, nan => false
  | inf s, inf t => s && !t
  | inf s, finite _ _ _ => s
  | finite _ _ _, inf t => !t
  | finite sa ma ea, finite sb mb eb =>
    let e : ℤ := min ea eb
    decide (signed sa (ma * 2 ^ (ea - e).toNat) < signed sb (mb * 2 ^ (eb - e).toNat))

/-- The comparison `x <= y` of binary64: false when an operand is NaN. -/
def le : F64 → F64 → Bool
  | nan, _ => false
  | _, nan => false
  | inf s, inf t => s || !t
  | inf s, finite _ _ _ => s
  | finite _ _ _, inf t => !t
  | finite sa ma ea, finite sb mb eb =>
    let e : ℤ := min ea eb
    decide (signed sa (ma * 2 ^ (ea - e).toNat) ≤ signed sb (mb * 2 ^ (eb - e).toNat))

/-- The power `x ^ n` by repeated multiplication; `x ^ 1 = 1 * x`, which is
`x` for every `x`, as `pow(x, 1)` is. -/
def npow (x : F64) : ℕ → F64
  | 0 => ofNat 1
  | n + 1 => mul (npow x n) x

/-- Whether `x` is a NaN. -/
def isNaN : F64 → Bool
  | nan => true
  | _ => false

instance : Zero F64 := ⟨ofNat 0⟩

instance : One F64 := ⟨ofNat 1⟩

instance : Add F64 := ⟨add⟩

instance : Sub F64 := ⟨sub⟩

instance : Mul F64 := ⟨mul⟩

instance : Div F64 := ⟨div⟩

instance : Neg F64 := ⟨neg⟩

instance : Pow F64 ℕ := ⟨npow⟩

instance : LT F64 := ⟨fun x y => lt x y = true⟩

instance : LE F64 := ⟨fun x y => le x y = true⟩

instance (x y : F64) : Decidable (x < y) :=
  inferInstanceAs (Decidable (lt x y = true))

instance (x y : F64) : Decidable (x ≤ y) :=
  inferInstanceAs (Decidable (le x y = true))

end F64

/-! ## Data model -/

/-- The four data members of the class: `const D Rk; const D Qk; D xk_last;
D Pk_last;`. -/
@[ext]
structure TrivialKalmanFilter (D : Type) where
  Rk : D
  Qk : D
  xk_last : D
  Pk_last : D
deriving Repr, DecidableEq

namespace TrivialKalmanFilter

variable {D : Type}

/-! ## Model constants (`static constexpr D ...`) -/

section Constants

variable (D)

/-- `static constexpr D k = 1;` -/
def k [One D] : D := 1

/-- `static constexpr D Bk = 0;` -/
def Bk [Zero D] : D := 0

/-- `static constexpr D uk = 0;` -/
def uk [Zero D] : D := 0

/-- `static constexpr D Fk = 1;` -/
def Fk [One D] : D := 1

/-- `static constexpr D T = 1;`  The constant is only ever used as the
exponent handed to `pow`, so it is kept as the natural number `1`. -/
def T : ℕ := 1

/-- `static constexpr D Fk_T = pow(Fk, T);` -/
def Fk_T [One D] [Pow D ℕ] : D := Fk D ^ T

/-- `static constexpr D Hk = 1;` -/
def Hk [One D] : D := 1

/-- `static constexpr D Hk_T = pow(Hk, T);` -/
def Hk_T [One D] [Pow D ℕ] : D := Hk D ^ T

/-- `static constexpr D I = 1;` -/
def I [One D] : D := 1

end Constants

/-! ## Operations -/

section Operations

variable [Zero D] [One D] [Add D] [Sub D] [Mul D] [Div D] [Pow D ℕ]

/-- `void reset(const D xk = 0, const D Pk = 1)`: overwrites `xk_last` and
`Pk_last`, leaves `Rk` and `Qk` alone. -/
def reset (f : TrivialKalmanFilter D) (xk Pk : D) : TrivialKalmanFilter D :=
  { f with xk_last := xk, Pk_last := Pk }

/-- The call `reset()`: both default arguments, `xk = 0` and `Pk = 1`. -/
def resetDefault (f : TrivialKalmanFilter D) : TrivialKalmanFilter D :=
  reset f 0 1

/-- `TrivialKalmanFilter(const D Rk, const D Qk) : Rk(Rk), Qk(Qk) { reset(); }`.
The member initialisers set `Rk` and `Qk`; `xk_last` and `Pk_last` hold no
determined value until the body calls `reset()`, which overwrites both (the
placeholder `0` below is never observable). -/
def construct (Rk Qk : D) : TrivialKalmanFilter D :=
  resetDefault { Rk := Rk, Qk := Qk, xk_last := 0, Pk_last := 0 }

/-- `D get() const { return xk_last; }` -/
def get (f : TrivialKalmanFilter D) : D :=
  f.xk_last

/-- The local variables of one run of `update`, in the order the body
computes them.  `xk_pred` and `Pk_pred` are the first values of the locals
`xk` and `Pk`, `xk` and `Pk` their values after reassignment. -/
structure UpdateLocals (D : Type) where
  xk_pred : D
  Pk_pred : D
  yk : D
  Sk : D
  Kk : D
  xk : D
  Pk : D
deriving Repr, DecidableEq

/-- The arithmetic of the body of `D update(const D zk)`, line by line. -/
def updateLocals (f : TrivialKalmanFilter D) (zk : D) : UpdateLocals D :=
  let xk := (Fk D * f.xk_last) + (Bk D * uk D)
  let Pk := (Fk D * f.Pk_last * Fk_T D) + f.Qk
  let yk := zk - (Hk D * xk)
  let Sk := f.Rk + (Hk D * Pk * Hk_T D)
  let Kk := (Pk * Hk_T D) / Sk
  let xk' := xk + (Kk * yk)
  let Pk' := (I D - (Kk * Hk D)) * Pk
  { xk_pred := xk, Pk_pred := Pk, yk := yk, Sk := Sk, Kk := Kk, xk := xk', Pk := Pk' }

/-- `D update(const D zk)`: computes the locals, commits `xk_last = xk;
Pk_last = Pk;` and returns `xk`.  The result is the returned value paired
with the filter after the call. -/
def update (f : TrivialKalmanFilter D) (zk : D) : D × TrivialKalmanFilter D :=
  let l := updateLocals f zk
  (l.xk, { f with xk_last := l.xk, Pk_last := l.Pk })

/-- One call on the public interface of a constructed filter. -/
inductive Op (D : Type) where
  | update (zk : D)
  | reset (xk Pk : D)
  | get
deriving Repr, DecidableEq

/-- The filter after one call. -/
def step (f : TrivialKalmanFilter D) : Op D → TrivialKalmanFilter D
  | Op.update zk => (update f zk).2
  | Op.reset xk Pk => reset f xk Pk
  | Op.get => f

/-- The filter after a finite sequence of calls, first call first. -/
def run (f : TrivialKalmanFilter D) : List (Op D) → TrivialKalmanFilter D
  | [] => f
  | op :: ops => run (step f op) ops

/-- Feeds the measurements `zs` to `update` one after the other: the list of
returned estimates and the final filter. -/
def updateAll (f : TrivialKalmanFilter D) : List D → List D × TrivialKalmanFilter D
  | [] => ([], f)
  | zk :: zs =>
    let r := update f zk
    let rest := updateAll r.2 zs
    (r.1 :: rest.1, rest.2)

/-- The filter after `n` calls of `update`, the `i`-th call (from 0) with
measurement `z i`. -/
def updateSeq (f : TrivialKalmanFilter D) (z : ℕ → D) : ℕ → TrivialKalmanFilter D
  | 0 => f
  | n + 1 => (update (updateSeq f z n) (z n)).2

/-- The filter after `n` calls `update(v)` with the same measurement `v`. -/
def feed (f : TrivialKalmanFilter D) (v : D) (n : ℕ) : TrivialKalmanFilter D :=
  updateSeq f (fun _ => v) n

end Operations

/-! ## Basic facts about the operations -/

section Binary64Values

/-- Well-known values of binary64 arithmetic, as checks of `F64`: the double
nearest to `1/3`; `0.1 + 0.2`, which is the double `0x3FD3333333333334`;
`2^53 + 1 = 2^53` (ties to even); overflow to infinity; the smallest
subnormal halved is zero; division by zero and the NaN cases. -/
theorem F64_known_values :
    F64.ofNat 1 / F64.ofNat 3 = F64.finite false 6004799503160661 (-54) ∧
    F64.ofNat 1 / F64.ofNat 10 + F64.ofNat 2 / F64.ofNat 10 =
      F64.finite false 5404319552844596 (-54) ∧
    F64.pow2 53 + F64.ofNat 1 = F64.pow2 53 ∧
    F64.pow2 1023 + F64.pow2 1023 = F64.inf false ∧
    F64.pow2 (-1074) / F64.ofNat 2 = 0 ∧
    F64.ofNat 1 / 0 = F64.inf false ∧
    (0 : F64) / 0 = F64.nan ∧
    F64.inf false / F64.inf false = F64.nan ∧
    F64.inf false - F64.inf false = F64.nan ∧
    F64.inf false * 0 = F64.nan ∧
    ¬ F64.nan ≤ F64.nan ∧
    (1 : F64) ^ 1 = 1 := by
  decide!

end Binary64Values

section Basic

variable [Field D]

theorem Fk_T_eq_one : Fk_T D = 1 := by simp [Fk_T, Fk, T]

theorem Hk_T_eq_one : Hk_T D = 1 := by simp [Hk_T, Hk, T]

theorem updateLocals_Pk_pred (f : TrivialKalmanFilter D) (zk : D) :
    (updateLocals f zk).Pk_pred = f.Pk_last + f.Qk := by
  simp [updateLocals, Fk, Fk_T, T]

theorem updateLocals_Sk (f : TrivialKalmanFilter D) (zk : D) :
    (updateLocals f zk).Sk = f.Rk + (f.Pk_last + f.Qk) := by
  simp [updateLocals, Fk, Fk_T, Hk, Hk_T, T]

theorem updateLocals_Kk (f : TrivialKalmanFilter D) (zk : D) :
    (updateLocals f zk).Kk = (f.Pk_last + f.Qk) / (f.Rk + (f.Pk_last + f.Qk)) := by
  simp [updateLocals, Fk, Fk_T, Hk, Hk_T, T]

theorem update_xk_last (f : TrivialKalmanFilter D) (zk : D) :
    (update f zk).2.xk_last =
      f.xk_last + (f.Pk_last + f.Qk) / (f.Rk + (f.Pk_last + f.Qk)) * (zk - f.xk_last) := by
  simp [update, updateLocals, Fk, Fk_T, Hk, Hk_T, Bk, uk, T]

theorem update_Pk_last (f : TrivialKalmanFilter D) (zk : D) :
    (update f zk).2.Pk_last =
      (1 - (f.Pk_last + f.Qk) / (f.Rk + (f.Pk_last + f.Qk))) * (f.Pk_last + f.Qk) := by
  simp [update, updateLocals, Fk, Fk_T, Hk, Hk_T, I, T]

theorem update_fst (f : TrivialKalmanFilter D) (zk : D) :
    (update f zk).1 = (update f zk).2.xk_last := rfl

theorem update_Rk (f : TrivialKalmanFilter D) (zk : D) : (update f zk).2.Rk = f.Rk := rfl

theorem update_Qk (f : TrivialKalmanFilter D) (zk : D) : (update f zk).2.Qk = f.Qk := rfl

theorem step_Rk (f : TrivialKalmanFilter D) (op : Op D) : (step f op).Rk = f.Rk := by
  cases op <;> rfl

theorem step_Qk (f : TrivialKalmanFilter D) (op : Op D) : (step f op).Qk = f.Qk := by
  cases op <;> rfl

theorem run_Rk (f : TrivialKalmanFilter D) (ops : List (Op D)) : (run f ops).Rk = f.Rk := by
  induction ops generalizing f with
  | nil => rfl
  | cons op ops ih => rw [run, ih, step_Rk]

theorem run_Qk (f : TrivialKalmanFilter D) (ops : List (Op D)) : (run f ops).Qk = f.Qk := by
  induction ops generalizing f with
  | nil => rfl
  | cons op ops ih => rw [run, ih, step_Qk]

theorem updateSeq_Rk (f : TrivialKalmanFilter D) (z : ℕ → D) (n : ℕ) :
    (updateSeq f z n).Rk = f.Rk := by
  induction n with
  | zero => rfl
  | succ n ih => rw [updateSeq, update_Rk, ih]

theorem updateSeq_Qk (f : TrivialKalmanFilter D) (z : ℕ → D) (n : ℕ) :
    (updateSeq f z n).Qk = f.Qk := by
  induction n with
  | zero => rfl
  | succ n ih => rw [updateSeq, update_Qk, ih]

theorem update_Pk_last_closed (f : TrivialKalmanFilter D) (zk : D)
    (hS : f.Rk + (f.Pk_last + f.Qk) ≠ 0) :
    (update f zk).2.Pk_last =
      f.Rk * (f.Pk_last + f.Qk) / (f.Rk + (f.Pk_last + f.Qk)) := by
  rw [update_Pk_last]
  field_simp

theorem update_error (f : TrivialKalmanFilter D) (zk : D)
    (hS : f.Rk + (f.Pk_last + f.Qk) ≠ 0) :
    (update f zk).2.xk_last - zk =
      f.Rk / (f.Rk + (f.Pk_last + f.Qk)) * (f.xk_last - zk) := by
  rw [update_xk_last]
  field_simp
  ring

theorem feed_succ (f : TrivialKalmanFilter D) (v : D) (n : ℕ) :
    feed f v (n + 1) = (update (feed f v n) v).2 := rfl

theorem feed_Rk (f : TrivialKalmanFilter D) (v : D) (n : ℕ) : (feed f v n).Rk = f.Rk :=
  updateSeq_Rk f _ n

theorem feed_Qk (f : TrivialKalmanFilter D) (v : D) (n : ℕ) : (feed f v n).Qk = f.Qk :=
  updateSeq_Qk f _ n

end Basic

/-! ## Claims about single calls, construction and reset -/

section Contract

variable [Field D]

/-- C1: for every filter state and every measurement `zk`, with
`Pk_pred = Pk_last + Qk`, `Sk = Rk + Pk_pred` and `Kk = Pk_pred / Sk`, the
coded `update` (with its constants `Bk = 0`, `uk = 0`, `Fk = 1`, `Hk = 1`,
`I = 1`, `Fk_T = Hk_T = 1`) computes exactly these intermediate values, commits
`xk_last = x + Kk * (zk - x)` and `Pk_last = (1 - Kk) * Pk_pred`, and returns
the committed `xk_last`. -/
theorem update_commits_kalman_step (f : TrivialKalmanFilter D) (zk : D) :
    let Pk_pred := f.Pk_last + f.Qk
    let Sk := f.Rk + Pk_pred
    let Kk := Pk_pred / Sk
    (Bk D = 0 ∧ uk D = 0 ∧ Fk D = 1 ∧ Hk D = 1 ∧ I D = 1 ∧ Fk_T D = 1 ∧ Hk_T D = 1) ∧
    (updateLocals f zk).Pk_pred = Pk_pred ∧
    (updateLocals f zk).Sk = Sk ∧
    (updateLocals f zk).Kk = Kk ∧
    (update f zk).2.xk_last = f.xk_last + Kk * (zk - f.xk_last) ∧
    (update f zk).2.Pk_last = (1 - Kk) * Pk_pred ∧
    (update f zk).1 = f.xk_last + Kk * (zk - f.xk_last) ∧
    get (update f zk).2 = (update f zk).1 := by
  refine ⟨⟨rfl, rfl, rfl, rfl, rfl, Fk_T_eq_one, Hk_T_eq_one⟩, updateLocals_Pk_pred f zk,
    updateLocals_Sk f zk, updateLocals_Kk f zk, update_xk_last f zk, update_Pk_last f zk, ?_, rfl⟩
  rw [update_fst, update_xk_last]

/-- C3: after any finite sequence of `update`, `reset` (and `get`) calls on a
constructed filter, `reset a b` followed by `get` returns exactly `a`, and the
error covariance is exactly `b`. -/
theorem reset_then_get (Rk Qk : D) (ops : List (Op D)) (a b : D) :
    get (reset (run (construct Rk Qk) ops) a b) = a ∧
      (reset (run (construct Rk Qk) ops) a b).Pk_last = b :=
  ⟨rfl, rfl⟩

/-- C4: in every state reachable from `construct Rk Qk` by `update` and
`reset` calls, `reset()` with no arguments sets the estimate to `0` and the
covariance to `1`; the resulting state is the freshly constructed one, and so
every following sequence of updates returns the same estimates (and ends in
the same state) as on a fresh filter. -/
theorem resetDefault_restores_fresh (Rk Qk : D) (ops : List (Op D)) (zs : List D) :
    (resetDefault (run (construct Rk Qk) ops)).xk_last = 0 ∧
    (resetDefault (run (construct Rk Qk) ops)).Pk_last = 1 ∧
    resetDefault (run (construct Rk Qk) ops) = construct Rk Qk ∧
    updateAll (resetDefault (run (construct Rk Qk) ops)) zs =
      updateAll (construct Rk Qk) zs := by
  have h : resetDefault (run (construct Rk Qk) ops) = construct Rk Qk := by
    ext
    · exact run_Rk _ _
    · exact run_Qk _ _
    · rfl
    · rfl
  exact ⟨rfl, rfl, h, by rw [h]⟩

end Contract

/-! ## The concrete scenario of the documentation: `Rk = 4.7e-3`, `Qk = 1e-5` -/

section Scenario

/-- C5: for `construct 4.7e-3 1e-5` followed by one `update 25` from the
default initial state, `Pk_pred` is exactly `1.00001`, `Sk` is exactly
`1.00471`, the returned estimate is exactly `25 * 1.00001 / 1.00471`, and it
lies within relative tolerance `1e-4` of the expected value `24.883`. -/
theorem scenario_estimate :
    (updateLocals (construct (4.7e-3 : ℚ) 1e-5) 25).Pk_pred = 1.00001 ∧
    (updateLocals (construct (4.7e-3 : ℚ) 1e-5) 25).Sk = 1.00471 ∧
    (update (construct (4.7e-3 : ℚ) 1e-5) 25).1 = 25 * 1.00001 / 1.00471 ∧
    |(update (construct (4.7e-3 : ℚ) 1e-5) 25).1 - 24.883| ≤ 1e-4 * 24.883 := by
  have he : (update (construct (4.7e-3 : ℚ) 1e-5) 25).1 = 25 * 1.00001 / 1.00471 := by
    rw [update_fst, update_xk_last]
    norm_num [construct, resetDefault, reset]
  refine ⟨?_, ?_, he, ?_⟩
  · rw [updateLocals_Pk_pred]
    norm_num [construct, resetDefault, reset]
  · rw [updateLocals_Sk]
    norm_num [construct, resetDefault, reset]
  · rw [he, abs_le]
    constructor <;> norm_num

/-- C6, as stated, fails: after `construct 4.7e-3 1e-5` and one `update 25`
the committed error covariance is not within relative tolerance `1e-4` of
`0.00468` (the relative deviation is about `4.2e-4`). -/
theorem scenario_covariance_not_within_1e4 :
    ¬ |(update (construct (4.7e-3 : ℚ) 1e-5) 25).2.Pk_last - 0.00468| ≤ 1e-4 * 0.00468 := by
  rw [update_Pk_last, abs_le, not_and_or]
  left
  norm_num [construct, resetDefault, reset]

/-- C6, amended: after `construct 4.7e-3 1e-5` and one `update 25` from the
default initial state, the committed error covariance is exactly
`(1 - 1.00001 / 1.00471) * 1.00001`, and it lies within relative tolerance
`5e-4` of the expected value `0.00468`. -/
theorem scenario_covariance :
    (update (construct (4.7e-3 : ℚ) 1e-5) 25).2.Pk_last =
        (1 - 1.00001 / 1.00471) * 1.00001 ∧
    |(update (construct (4.7e-3 : ℚ) 1e-5) 25).2.Pk_last - 0.00468| ≤ 5e-4 * 0.00468 := by
  have hc : (update (construct (4.7e-3 : ℚ) 1e-5) 25).2.Pk_last =
      (1 - 1.00001 / 1.00471) * 1.00001 := by
    rw [update_Pk_last]
    norm_num [construct, resetDefault, reset]
  refine ⟨hc, ?_⟩
  rw [hc, abs_le]
  constructor <;> norm_num

end Scenario

/-! ## Repeated updates with positive noise covariances -/

section Order

variable [LinearOrderedField D]

theorem update_Pk_last_nonneg (f : TrivialKalmanFilter D) (zk : D)
    (hR : 0 < f.Rk) (hQ : 0 ≤ f.Qk) (hP : 0 ≤ f.Pk_last) :
    0 ≤ (update f zk).2.Pk_last := by
  have hS : 0 < f.Rk + (f.Pk_last + f.Qk) := by linarith
  rw [update_Pk_last_closed f zk hS.ne.symm]
  exact div_nonneg (mul_nonneg hR.le (by linarith)) hS.le

theorem updateSeq_Pk_last_nonneg (f : TrivialKalmanFilter D) (z : ℕ → D)
    (hR : 0 < f.Rk) (hQ : 0 ≤ f.Qk) (hP : 0 ≤ f.Pk_last) (n : ℕ) :
    0 ≤ (updateSeq f z n).Pk_last := by
  induction n with
  | zero => exact hP
  | succ n ih =>
    rw [updateSeq]
    refine update_Pk_last_nonneg _ _ ?_ ?_ ih
    · rw [updateSeq_Rk]; exact hR
    · rw [updateSeq_Qk]; exact hQ

theorem feed_construct_Pk_last_nonneg (Rk Qk v : D) (hR : 0 < Rk) (hQ : 0 ≤ Qk) (n : ℕ) :
    0 ≤ (feed (construct Rk Qk) v n).Pk_last :=
  updateSeq_Pk_last_nonneg (construct Rk Qk) _ hR hQ zero_le_one n

/-- One update with `Rk > 0`, `Qk > 0`, `Pk_last ≥ 0` scales the distance to
the measurement by the factor `Rk / Sk`, which lies strictly between 0 and 1. -/
theorem update_abs_error (f : TrivialKalmanFilter D) (zk : D)
    (hR : 0 < f.Rk) (hQ : 0 < f.Qk) (hP : 0 ≤ f.Pk_last) :
    |(update f zk).2.xk_last - zk| =
        f.Rk / (f.Rk + (f.Pk_last + f.Qk)) * |f.xk_last - zk| ∧
      0 < f.Rk / (f.Rk + (f.Pk_last + f.Qk)) ∧
      f.Rk / (f.Rk + (f.Pk_last + f.Qk)) ≤ f.Rk / (f.Rk + f.Qk) ∧
      f.Rk / (f.Rk + f.Qk) < 1 := by
  have hS : 0 < f.Rk + (f.Pk_last + f.Qk) := by linarith
  have hRQ : 0 < f.Rk + f.Qk := by linarith
  have hc : 0 < f.Rk / (f.Rk + (f.Pk_last + f.Qk)) := div_pos hR hS
  refine ⟨?_, hc, ?_, ?_⟩
  · rw [update_error f zk hS.ne.symm, abs_mul, abs_of_pos hc]
  · exact div_le_div_of_nonneg_left hR.le hRQ (by linarith)
  · rw [div_lt_one hRQ]
    linarith

/-- C7, amended: in exact arithmetic (`D` any linearly ordered field, no
rounding and no overflow), for `Rk > 0`, `Qk > 0`, every value `v` and every
`n`, on the filter `construct Rk Qk` fed `update v` repeatedly, the distance
`|get - v|` after `n + 1` updates is no larger than after `n` updates, and
strictly smaller whenever the estimate after `n` updates differs from `v`. -/
theorem feed_monotone_approach (Rk Qk v : D) (hR : 0 < Rk) (hQ : 0 < Qk) (n : ℕ) :
    |get (feed (construct Rk Qk) v (n + 1)) - v| ≤ |get (feed (construct Rk Qk) v n) - v| ∧
    (get (feed (construct Rk Qk) v n) ≠ v →
      |get (feed (construct Rk Qk) v (n + 1)) - v| < |get (feed (construct Rk Qk) v n) - v|) := by
  have hR' : 0 < (feed (construct Rk Qk) v n).Rk := by rw [feed_Rk]; exact hR
  have hQ' : 0 < (feed (construct Rk Qk) v n).Qk := by rw [feed_Qk]; exact hQ
  have hP' := feed_construct_Pk_last_nonneg Rk Qk v hR hQ.le n
  obtain ⟨he, hc0, hc1, hc2⟩ := update_abs_error (feed (construct Rk Qk) v n) v hR' hQ' hP'
  have hc : (feed (construct Rk Qk) v n).Rk /
      ((feed (construct Rk Qk) v n).Rk +
        ((feed (construct Rk Qk) v n).Pk_last + (feed (construct Rk Qk) v n).Qk)) < 1 :=
    lt_of_le_of_lt hc1 hc2
  simp only [get, feed_succ]
  rw [he]
  constructor
  · exact mul_le_of_le_one_left (abs_nonneg _) hc.le
  · intro hne
    have hpos : 0 < |(feed (construct Rk Qk) v n).xk_last - v| :=
      abs_pos.mpr (sub_ne_zero.mpr hne)
    exact mul_lt_of_lt_one_left hpos hc

/-- C7 (amended) at `Rk = 1/2`, `Qk = 1/4`, `v = 20`, `n = 2`, over `ℚ`. -/
theorem feed_monotone_approach_witness :
    |get (feed (construct (1 / 2 : ℚ) (1 / 4)) 20 (2 + 1)) - 20| ≤
        |get (feed (construct (1 / 2 : ℚ) (1 / 4)) 20 2) - 20| ∧
    (get (feed (construct (1 / 2 : ℚ) (1 / 4)) 20 2) ≠ 20 →
      |get (feed (construct (1 / 2 : ℚ) (1 / 4)) 20 (2 + 1)) - 20| <
        |get (feed (construct (1 / 2 : ℚ) (1 / 4)) 20 2) - 20|) :=
  feed_monotone_approach (1 / 2) (1 / 4) 20 (by norm_num) (by norm_num) 2

/-- The posterior covariance `Rk * (P + Qk) / (Rk + (P + Qk))` grows with the
prior covariance `P`. -/
theorem posterior_mono (R Q a b : D) (hR : 0 < R) (hQ : 0 ≤ Q) (ha : 0 ≤ a) (hab : a ≤ b) :
    R * (a + Q) / (R + (a + Q)) ≤ R * (b + Q) / (R + (b + Q)) := by
  rw [div_le_div_iff₀ (by linarith) (by linarith)]
  nlinarith [mul_nonneg (mul_nonneg hR.le hR.le) (sub_nonneg.2 hab)]

theorem feed_Pk_last_succ (Rk Qk v : D) (hR : 0 < Rk) (hQ : 0 ≤ Qk) (n : ℕ) :
    (feed (construct Rk Qk) v (n + 1)).Pk_last =
      Rk * ((feed (construct Rk Qk) v n).Pk_last + Qk) /
        (Rk + ((feed (construct Rk Qk) v n).Pk_last + Qk)) := by
  have hP := feed_construct_Pk_last_nonneg Rk Qk v hR hQ n
  have hRk : (feed (construct Rk Qk) v n).Rk = Rk := feed_Rk _ _ _
  have hQk : (feed (construct Rk Qk) v n).Qk = Qk := feed_Qk _ _ _
  have hS : (feed (construct Rk Qk) v n).Rk +
      ((feed (construct Rk Qk) v n).Pk_last + (feed (construct Rk Qk) v n).Qk) ≠ 0 := by
    rw [hRk, hQk]
    exact ne_of_gt (by linarith)
  rw [feed_succ, update_Pk_last_closed _ _ hS, hRk, hQk]

/-- C8, as stated, fails.  In exact arithmetic, with `Rk = 3`, `Qk = 1` (both
positive) the error covariance after the first update, `6/5`, is larger than
the initial `1`.  On binary64, with `Rk = 2^-12`, `Qk = 2^-6` (both positive,
and `Rk * Qk ≤ 1 + Qk`) the error covariance after six updates,
`8870695194542552 * 2^-65`, is larger than after five,
`8870695194542512 * 2^-65`. -/
theorem covariance_not_decreasing_example :
    ((0 : ℚ) < 3 ∧ (0 : ℚ) < 1 ∧
      (feed (construct (3 : ℚ) 1) 20 0).Pk_last = 1 ∧
      (feed (construct (3 : ℚ) 1) 20 (0 + 1)).Pk_last = 6 / 5 ∧
      ¬ (feed (construct (3 : ℚ) 1) 20 (0 + 1)).Pk_last ≤
          (feed (construct (3 : ℚ) 1) 20 0).Pk_last) ∧
    ((0 : F64) < F64.pow2 (-12) ∧ (0 : F64) < F64.pow2 (-6) ∧
      F64.pow2 (-12) * F64.pow2 (-6) ≤ 1 + F64.pow2 (-6) ∧
      (feed (construct (F64.pow2 (-12)) (F64.pow2 (-6))) (F64.ofNat 20) 5).Pk_last =
        F64.finite false 8870695194542512 (-65) ∧
      (feed (construct (F64.pow2 (-12)) (F64.pow2 (-6))) (F64.ofNat 20) (5 + 1)).Pk_last =
        F64.finite false 8870695194542552 (-65) ∧
      ¬ (feed (construct (F64.pow2 (-12)) (F64.pow2 (-6))) (F64.ofNat 20) (5 + 1)).Pk_last ≤
          (feed (construct (F64.pow2 (-12)) (F64.pow2 (-6))) (F64.ofNat 20) 5).Pk_last) := by
  have h0 : (feed (construct (3 : ℚ) 1) 20 0).Pk_last = 1 := rfl
  have h1 : (feed (construct (3 : ℚ) 1) 20 (0 + 1)).Pk_last = 6 / 5 := by
    rw [feed_Pk_last_succ 3 1 20 (by norm_num) (by norm_num) 0, h0]
    norm_num
  refine ⟨⟨by norm_num, by norm_num, h0, h1, ?_⟩, by decide!⟩
  rw [h0, h1]
  norm_num

/-- C8, amended: in exact arithmetic (`D` any linearly ordered field, no
rounding and no overflow), for `Rk > 0` and `Qk > 0`, on the filter
`construct Rk Qk` (initial error covariance 1) fed a constant value repeatedly,
the error covariance after `n + 1` updates is at most its value after `n`
updates, for every `n`, exactly when `Rk * Qk ≤ 1 + Qk`. -/
theorem feed_covariance_decreasing_iff (Rk Qk v : D) (hR : 0 < Rk) (hQ : 0 < Qk) :
    (∀ n : ℕ, (feed (construct Rk Qk) v (n + 1)).Pk_last ≤
        (feed (construct Rk Qk) v n).Pk_last) ↔ Rk * Qk ≤ 1 + Qk := by
  have hfirst : (feed (construct Rk Qk) v (0 + 1)).Pk_last ≤
      (feed (construct Rk Qk) v 0).Pk_last ↔ Rk * Qk ≤ 1 + Qk := by
    have h0 : (feed (construct Rk Qk) v 0).Pk_last = 1 := rfl
    rw [feed_Pk_last_succ Rk Qk v hR hQ.le 0, h0, div_le_one (by linarith)]
    constructor <;> intro h <;> linarith
  constructor
  · intro h
    exact hfirst.mp (h 0)
  · intro h n
    induction n with
    | zero => exact hfirst.mpr h
    | succ n ih =>
      rw [feed_Pk_last_succ Rk Qk v hR hQ.le (n + 1)]
      exact (posterior_mono Rk Qk _ _ hR hQ.le
        (feed_construct_Pk_last_nonneg Rk Qk v hR hQ.le (n + 1)) ih).trans_eq
        (feed_Pk_last_succ Rk Qk v hR hQ.le n).symm

/-- C8 (amended) at `Rk = 4.7e-3`, `Qk = 1e-5`, `v = 25`, over `ℚ`. -/
theorem feed_covariance_decreasing_iff_witness :
    (∀ n : ℕ, (feed (construct (4.7e-3 : ℚ) 1e-5) 25 (n + 1)).Pk_last ≤
        (feed (construct (4.7e-3 : ℚ) 1e-5) 25 n).Pk_last) ↔
      (4.7e-3 : ℚ) * 1e-5 ≤ 1 + 1e-5 :=
  feed_covariance_decreasing_iff 4.7e-3 1e-5 25 (by norm_num) (by norm_num)

end Order

/-! ## Limits of repeated updates, over the reals -/

section Limits

open Filter

/-- A real sequence whose distance to `l` shrinks by a fixed factor `ρ < 1` at
every step converges to `l`. -/
theorem tendsto_of_abs_sub_le_mul (u : ℕ → ℝ) (l ρ : ℝ) (h0 : 0 ≤ ρ) (h1 : ρ < 1)
    (h : ∀ n, |u (n + 1) - l| ≤ ρ * |u n - l|) : Tendsto u atTop (nhds l) := by
  have hb : ∀ n, |u n - l| ≤ ρ ^ n * |u 0 - l| := by
    intro n
    induction n with
    | zero => simp
    | succ n ih =>
      calc |u (n + 1) - l| ≤ ρ * |u n - l| := h n
        _ ≤ ρ * (ρ ^ n * |u 0 - l|) := mul_le_mul_of_nonneg_left ih h0
        _ = ρ ^ (n + 1) * |u 0 - l| := by ring
  have hz : Tendsto (fun n => ρ ^ n * |u 0 - l|) atTop (nhds 0) := by
    simpa using (tendsto_pow_atTop_nhds_zero_of_lt_one h0 h1).mul_const |u 0 - l|
  have ha : Tendsto (fun n => |u n - l|) atTop (nhds 0) :=
    squeeze_zero (fun n => abs_nonneg _) hb hz
  have hs : Tendsto (fun n => u n - l) atTop (nhds 0) :=
    (tendsto_zero_iff_abs_tendsto_zero _).mpr ha
  exact tendsto_sub_nhds_zero_iff.mp hs

/-- The scalar Riccati equation of the filter: for `Rk + (P + Qk) ≠ 0`, the
covariance `P` is reproduced by the covariance update exactly when
`P ^ 2 + Qk * P - Rk * Qk = 0`. -/
theorem fixed_point_iff_quadratic (Rk Qk P : ℝ) (hS : Rk + P + Qk ≠ 0) :
    P = (1 - (P + Qk) / (Rk + P + Qk)) * (P + Qk) ↔ P ^ 2 + Qk * P - Rk * Qk = 0 := by
  have key : (1 - (P + Qk) / (Rk + P + Qk)) * (P + Qk) = Rk * (P + Qk) / (Rk + P + Qk) := by
    field_simp
  rw [key, eq_div_iff hS]
  constructor <;> intro h <;> linarith

/-- The positive root of the Riccati equation. -/
theorem riccati_root (Rk Qk : ℝ) (hR : 0 < Rk) (hQ : 0 < Qk) :
    0 ≤ (-Qk + Real.sqrt (Qk ^ 2 + 4 * Rk * Qk)) / 2 ∧
    ((-Qk + Real.sqrt (Qk ^ 2 + 4 * Rk * Qk)) / 2) ^ 2 +
      Qk * ((-Qk + Real.sqrt (Qk ^ 2 + 4 * Rk * Qk)) / 2) - Rk * Qk = 0 := by
  have hD : 0 ≤ Qk ^ 2 + 4 * Rk * Qk := by positivity
  have hs : Real.sqrt (Qk ^ 2 + 4 * Rk * Qk) ^ 2 = Qk ^ 2 + 4 * Rk * Qk := Real.sq_sqrt hD
  have hle : Qk ≤ Real.sqrt (Qk ^ 2 + 4 * Rk * Qk) := by
    rw [Real.le_sqrt' hQ]
    nlinarith [mul_pos hR hQ]
  constructor
  · linarith
  · nlinarith [hs]

/-- One covariance update moves `Pk_last` towards a non-negative solution `P`
of the Riccati equation by at least the factor `Rk / (Rk + Qk)`. -/
theorem update_Pk_last_contracts (f : TrivialKalmanFilter ℝ) (zk P : ℝ)
    (hR : 0 < f.Rk) (hQ : 0 < f.Qk) (hp : 0 ≤ f.Pk_last) (hP : 0 ≤ P)
    (hroot : P ^ 2 + f.Qk * P - f.Rk * f.Qk = 0) :
    |(update f zk).2.Pk_last - P| ≤ f.Rk / (f.Rk + f.Qk) * |f.Pk_last - P| := by
  have hS : 0 < f.Rk + (f.Pk_last + f.Qk) := by linarith
  have hSP : 0 < f.Rk + (P + f.Qk) := by linarith
  have hRQ : 0 < f.Rk + f.Qk := by linarith
  have hdiff : (update f zk).2.Pk_last - P =
      f.Rk / (f.Rk + (f.Pk_last + f.Qk)) * (f.Rk / (f.Rk + (P + f.Qk))) * (f.Pk_last - P) := by
    have key : (f.Rk * (f.Pk_last + f.Qk) - P * (f.Rk + (f.Pk_last + f.Qk))) *
        (f.Rk + (P + f.Qk)) = f.Rk * f.Rk * (f.Pk_last - P) := by
      linear_combination (-(f.Pk_last + f.Rk + f.Qk)) * hroot
    have hsplit : f.Rk * (f.Pk_last + f.Qk) / (f.Rk + (f.Pk_last + f.Qk)) - P =
        (f.Rk * (f.Pk_last + f.Qk) - P * (f.Rk + (f.Pk_last + f.Qk))) * (f.Rk + (P + f.Qk)) /
          ((f.Rk + (f.Pk_last + f.Qk)) * (f.Rk + (P + f.Qk))) := by
      field_simp
      ring
    rw [update_Pk_last_closed f zk hS.ne.symm, hsplit, key]
    field_simp
  have h1 : f.Rk / (f.Rk + (f.Pk_last + f.Qk)) ≤ f.Rk / (f.Rk + f.Qk) :=
    div_le_div_of_nonneg_left hR.le hRQ (by linarith)
  have h2 : f.Rk / (f.Rk + (P + f.Qk)) ≤ 1 := by
    rw [div_le_one hSP]
    linarith
  have h3 : 0 ≤ f.Rk / (f.Rk + (f.Pk_last + f.Qk)) := (div_pos hR hS).le
  have h4 : 0 ≤ f.Rk / (f.Rk + (P + f.Qk)) := (div_pos hR hSP).le
  rw [hdiff, abs_mul, abs_of_nonneg (mul_nonneg h3 h4)]
  refine mul_le_mul_of_nonneg_right ?_ (abs_nonneg _)
  calc f.Rk / (f.Rk + (f.Pk_last + f.Qk)) * (f.Rk / (f.Rk + (P + f.Qk)))
      ≤ f.Rk / (f.Rk + f.Qk) * 1 := mul_le_mul h1 h2 h4 (div_pos hR hRQ).le
    _ = f.Rk / (f.Rk + f.Qk) := mul_one _

/-- C9: for `Rk > 0` and `Qk > 0`, on the filter `construct Rk Qk` updated
repeatedly (with any measurements `z 0, z 1, ...`), the error covariance
converges to `P = (-Qk + sqrt (Qk ^ 2 + 4 * Rk * Qk)) / 2`; this `P` is
non-negative, satisfies `P = (1 - K) * (P + Qk)` with
`K = (P + Qk) / (Rk + P + Qk)`, is the only non-negative solution of that
equation, and is reproduced by `update` from any state whose covariance is
`P`. -/
theorem covariance_converges_to_fixed_point (Rk Qk : ℝ) (hR : 0 < Rk) (hQ : 0 < Qk)
    (z : ℕ → ℝ) :
    ∃ P : ℝ, P = (-Qk + Real.sqrt (Qk ^ 2 + 4 * Rk * Qk)) / 2 ∧
      Tendsto (fun n => (updateSeq (construct Rk Qk) z n).Pk_last) atTop (nhds P) ∧
      0 ≤ P ∧
      P = (1 - (P + Qk) / (Rk + P + Qk)) * (P + Qk) ∧
      (∀ P' : ℝ, 0 ≤ P' → P' = (1 - (P' + Qk) / (Rk + P' + Qk)) * (P' + Qk) → P' = P) ∧
      (∀ x zk : ℝ,
        (update { Rk := Rk, Qk := Qk, xk_last := x, Pk_last := P } zk).2.Pk_last = P) := by
  obtain ⟨hP0, hroot⟩ := riccati_root Rk Qk hR hQ
  refine ⟨(-Qk + Real.sqrt (Qk ^ 2 + 4 * Rk * Qk)) / 2, rfl, ?_, hP0, ?_, ?_, ?_⟩
  · have hρ0 : 0 ≤ Rk / (Rk + Qk) := (div_pos hR (by linarith)).le
    have hρ1 : Rk / (Rk + Qk) < 1 := by
      rw [div_lt_one (by linarith)]
      linarith
    refine tendsto_of_abs_sub_le_mul _ _ (Rk / (Rk + Qk)) hρ0 hρ1 ?_
    intro n
    have hRk : (updateSeq (construct Rk Qk) z n).Rk = Rk := updateSeq_Rk _ _ _
    have hQk : (updateSeq (construct Rk Qk) z n).Qk = Qk := updateSeq_Qk _ _ _
    have hp : 0 ≤ (updateSeq (construct Rk Qk) z n).Pk_last :=
      updateSeq_Pk_last_nonneg (construct Rk Qk) z hR hQ.le zero_le_one n
    have h := update_Pk_last_contracts (updateSeq (construct Rk Qk) z n) (z n)
      ((-Qk + Real.sqrt (Qk ^ 2 + 4 * Rk * Qk)) / 2) (by rw [hRk]; exact hR)
      (by rw [hQk]; exact hQ) hp hP0 (by rw [hRk, hQk]; exact hroot)
    rw [hRk, hQk] at h
    exact h
  · exact (fixed_point_iff_quadratic Rk Qk _ (by linarith)).mpr hroot
  · intro P' hP' hfix
    have hq := (fixed_point_iff_quadratic Rk Qk P' (by linarith)).mp hfix
    have hprod : (P' - (-Qk + Real.sqrt (Qk ^ 2 + 4 * Rk * Qk)) / 2) *
        (P' + (-Qk + Real.sqrt (Qk ^ 2 + 4 * Rk * Qk)) / 2 + Qk) = 0 := by
      linear_combination hq - hroot
    rcases mul_eq_zero.mp hprod with h | h
    · linarith
    · linarith
  · intro x zk
    rw [update_Pk_last]
    dsimp only
    rw [← add_assoc Rk]
    exact ((fixed_point_iff_quadratic Rk Qk _ (by linarith)).mpr hroot).symm

/-- C9 at `Rk = 2`, `Qk = 1`, every measurement `20`: the limit is
`(-1 + sqrt 9) / 2`. -/
theorem covariance_converges_to_fixed_point_witness :
    ∃ P : ℝ, P = (-1 + Real.sqrt (1 ^ 2 + 4 * 2 * 1)) / 2 ∧
      Tendsto (fun n => (updateSeq (construct (2 : ℝ) 1) (fun _ => 20) n).Pk_last)
        atTop (nhds P) ∧
      0 ≤ P ∧
      P = (1 - (P + 1) / (2 + P + 1)) * (P + 1) ∧
      (∀ P' : ℝ, 0 ≤ P' → P' = (1 - (P' + 1) / (2 + P' + 1)) * (P' + 1) → P' = P) ∧
      (∀ x zk : ℝ,
        (update { Rk := 2, Qk := 1, xk_last := x, Pk_last := P } zk).2.Pk_last = P) :=
  covariance_converges_to_fixed_point 2 1 (by norm_num) (by norm_num) (fun _ => 20)

/-- C10: for `Rk > 0`, `Qk > 0` and every value `v`, on the filter
`construct Rk Qk` fed `update v` repeatedly, the values of `get` converge to
`v` as the number of updates tends to infinity. -/
theorem estimate_converges (Rk Qk v : ℝ) (hR : 0 < Rk) (hQ : 0 < Qk) :
    Tendsto (fun n => get (feed (construct Rk Qk) v n)) atTop (nhds v) := by
  have hρ0 : 0 ≤ Rk / (Rk + Qk) := (div_pos hR (by linarith)).le
  have hρ1 : Rk / (Rk + Qk) < 1 := by
    rw [div_lt_one (by linarith)]
    linarith
  refine tendsto_of_abs_sub_le_mul _ _ (Rk / (Rk + Qk)) hρ0 hρ1 ?_
  intro n
  have hRk : (feed (construct Rk Qk) v n).Rk = Rk := feed_Rk _ _ _
  have hQk : (feed (construct Rk Qk) v n).Qk = Qk := feed_Qk _ _ _
  have hp := feed_construct_Pk_last_nonneg Rk Qk v hR hQ.le n
  obtain ⟨he, -, hc1, -⟩ := update_abs_error (feed (construct Rk Qk) v n) v
    (by rw [hRk]; exact hR) (by rw [hQk]; exact hQ) hp
  rw [hRk, hQk] at he hc1
  simp only [get, feed_succ]
  rw [he]
  exact mul_le_mul_of_nonneg_right hc1 (abs_nonneg _)

/-- C10 at `Rk = 4.7e-3`, `Qk = 1e-5`, `v = 20`. -/
theorem estimate_converges_witness :
    Tendsto (fun n => get (feed (construct (4.7e-3 : ℝ) 1e-5) 20 n)) atTop (nhds 20) :=
  estimate_converges 4.7e-3 1e-5 20 (by norm_num) (by norm_num)

end Limits

/-! ## Invariants of the error covariance and the gain -/

section Invariants

variable [LinearOrderedField D]

/-- With `Rk > 0` and a non-negative predicted covariance the gain `Kk` lies
in `[0, 1)`; it is positive when the predicted covariance is. -/
theorem Kk_bounds (f : TrivialKalmanFilter D) (zk : D)
    (hR : 0 < f.Rk) (hPp : 0 ≤ f.Pk_last + f.Qk) :
    0 ≤ (updateLocals f zk).Kk ∧ (updateLocals f zk).Kk < 1 ∧
      (0 < f.Pk_last + f.Qk → 0 < (updateLocals f zk).Kk) := by
  have hS : 0 < f.Rk + (f.Pk_last + f.Qk) := by linarith
  rw [updateLocals_Kk]
  refine ⟨div_nonneg hPp hS.le, ?_, fun h => div_pos h hS⟩
  rw [div_lt_one hS]
  linarith

theorem update_xk_last_gain (f : TrivialKalmanFilter D) (zk : D) :
    (update f zk).2.xk_last = f.xk_last + (updateLocals f zk).Kk * (zk - f.xk_last) := by
  rw [update_xk_last, updateLocals_Kk]

/-- C13: in every state with `Rk ≥ 0` and `Pk_pred = Pk_last + Qk ≥ 0`, the
divisor `Sk = Rk + Pk_pred` of the gain is zero exactly when `Rk = 0` and
`Pk_pred = 0`; in particular `Sk ≠ 0` whenever `Rk > 0`, `Pk_last ≥ 0` and
`Qk ≥ 0`. -/
theorem Sk_eq_zero_iff (f : TrivialKalmanFilter D) (zk : D) :
    (0 ≤ f.Rk → 0 ≤ (updateLocals f zk).Pk_pred →
      ((updateLocals f zk).Sk = 0 ↔ f.Rk = 0 ∧ (updateLocals f zk).Pk_pred = 0)) ∧
    (updateLocals f zk).Pk_pred = f.Pk_last + f.Qk ∧
    (updateLocals f zk).Sk = f.Rk + (updateLocals f zk).Pk_pred ∧
    (0 < f.Rk → 0 ≤ f.Pk_last → 0 ≤ f.Qk → (updateLocals f zk).Sk ≠ 0) := by
  rw [updateLocals_Sk, updateLocals_Pk_pred]
  refine ⟨fun hR hP => ?_, rfl, rfl, fun hR hP hQ => ?_⟩
  · constructor
    · intro h
      constructor <;> linarith
    · rintro ⟨h1, h2⟩
      rw [h1, h2, add_zero]
  · exact ne_of_gt (by linarith)

/-- C13 at the state `Rk = 0`, `Qk = 0`, `Pk_last = 0` (where `Sk = 0`) for
the equivalence, read from right to left. -/
theorem Sk_eq_zero_iff_witness :
    (updateLocals ({ Rk := 0, Qk := 0, xk_last := 5, Pk_last := 0 } :
      TrivialKalmanFilter ℚ) 7).Sk = 0 :=
  ((Sk_eq_zero_iff ({ Rk := 0, Qk := 0, xk_last := 5, Pk_last := 0 } :
      TrivialKalmanFilter ℚ) 7).1 (le_refl 0)
    (by rw [updateLocals_Pk_pred]; norm_num)).mpr
    ⟨rfl, by rw [updateLocals_Pk_pred]; norm_num⟩

/-- C15, amended: in exact arithmetic (`D` any linearly ordered field, no
rounding and no overflow), with `Qk = 0`, `Rk > 0` and `Pk_last > 0` (as right
after `construct`), for every measurement `zk` the gain computed by `update`
lies
strictly between 0 and 1, and when `zk` differs from the prior estimate the
new estimate lies strictly between the prior estimate and `zk`. -/
theorem partial_move_zero_process_noise (f : TrivialKalmanFilter D) (zk : D)
    (hQ : f.Qk = 0) (hR : 0 < f.Rk) (hP : 0 < f.Pk_last) :
    0 < (updateLocals f zk).Kk ∧ (updateLocals f zk).Kk < 1 ∧
    (zk ≠ f.xk_last →
      (f.xk_last < (update f zk).1 ∧ (update f zk).1 < zk) ∨
      (zk < (update f zk).1 ∧ (update f zk).1 < f.xk_last)) := by
  have hPp : 0 < f.Pk_last + f.Qk := by rw [hQ]; linarith
  obtain ⟨-, hK1, hK0⟩ := Kk_bounds f zk hR hPp.le
  have hK0 := hK0 hPp
  refine ⟨hK0, hK1, fun hne => ?_⟩
  rw [update_fst, update_xk_last_gain]
  generalize (updateLocals f zk).Kk = K at hK0 hK1
  have h1 : 0 < 1 - K := by linarith
  rcases lt_or_gt_of_ne hne with h | h
  · right
    have hd : 0 < f.xk_last - zk := sub_pos.2 h
    constructor
    · nlinarith [mul_pos h1 hd]
    · nlinarith [mul_pos hK0 hd]
  · left
    have hd : 0 < zk - f.xk_last := sub_pos.2 h
    constructor
    · nlinarith [mul_pos hK0 hd]
    · nlinarith [mul_pos h1 hd]

/-- C15 (amended) over `ℚ`, at the state right after `construct 2 0`, with
measurement `10`. -/
theorem partial_move_zero_process_noise_witness :
    0 < (updateLocals (construct (2 : ℚ) 0) 10).Kk ∧
    (updateLocals (construct (2 : ℚ) 0) 10).Kk < 1 ∧
    ((10 : ℚ) ≠ (construct (2 : ℚ) 0).xk_last →
      ((construct (2 : ℚ) 0).xk_last < (update (construct (2 : ℚ) 0) 10).1 ∧
        (update (construct (2 : ℚ) 0) 10).1 < 10) ∨
      (10 < (update (construct (2 : ℚ) 0) 10).1 ∧
        (update (construct (2 : ℚ) 0) 10).1 < (construct (2 : ℚ) 0).xk_last)) :=
  partial_move_zero_process_noise (construct 2 0) 10 rfl
    (show (0 : ℚ) < 2 by norm_num) (show (0 : ℚ) < 1 by norm_num)

/-- C19, amended: in exact arithmetic (`D` any linearly ordered field, no
rounding and no overflow), in every state with `Rk > 0`, `Qk ≥ 0` and
`Pk_last ≥ 0`, for every measurement, the error covariance committed by
`update` equals
`Rk * Pk_pred / (Rk + Pk_pred)` with `Pk_pred = Pk_last + Qk`, and so it is
non-negative, at most `Pk_pred`, and strictly below `Rk`. -/
theorem posterior_covariance_bound (f : TrivialKalmanFilter D) (zk : D)
    (hR : 0 < f.Rk) (hQ : 0 ≤ f.Qk) (hP : 0 ≤ f.Pk_last) :
    (updateLocals f zk).Pk_pred = f.Pk_last + f.Qk ∧
    (update f zk).2.Pk_last =
      f.Rk * (f.Pk_last + f.Qk) / (f.Rk + (f.Pk_last + f.Qk)) ∧
    0 ≤ (update f zk).2.Pk_last ∧
    (update f zk).2.Pk_last ≤ f.Pk_last + f.Qk ∧
    (update f zk).2.Pk_last < f.Rk := by
  have hPp : 0 ≤ f.Pk_last + f.Qk := by linarith
  have hS : 0 < f.Rk + (f.Pk_last + f.Qk) := by linarith
  have hc := update_Pk_last_closed f zk hS.ne.symm
  refine ⟨updateLocals_Pk_pred f zk, hc, update_Pk_last_nonneg f zk hR hQ hP, ?_, ?_⟩
  · rw [hc, div_le_iff₀ hS]
    nlinarith [mul_nonneg hPp hPp]
  · rw [hc, div_lt_iff₀ hS]
    nlinarith [mul_pos hR hR]

/-- C19 (amended) over `ℚ`, at the state `Rk = 2`, `Qk = 1/2`, `Pk_last = 3`,
measurement `7`. -/
theorem posterior_covariance_bound_witness :
    (updateLocals ({ Rk := 2, Qk := 1 / 2, xk_last := 4, Pk_last := 3 } :
      TrivialKalmanFilter ℚ) 7).Pk_pred = 3 + 1 / 2 ∧
    (update ({ Rk := 2, Qk := 1 / 2, xk_last := 4, Pk_last := 3 } :
      TrivialKalmanFilter ℚ) 7).2.Pk_last = 2 * (3 + 1 / 2) / (2 + (3 + 1 / 2)) ∧
    0 ≤ (update ({ Rk := 2, Qk := 1 / 2, xk_last := 4, Pk_last := 3 } :
      TrivialKalmanFilter ℚ) 7).2.Pk_last ∧
    (update ({ Rk := 2, Qk := 1 / 2, xk_last := 4, Pk_last := 3 } :
      TrivialKalmanFilter ℚ) 7).2.Pk_last ≤ 3 + 1 / 2 ∧
    (update ({ Rk := 2, Qk := 1 / 2, xk_last := 4, Pk_last := 3 } :
      TrivialKalmanFilter ℚ) 7).2.Pk_last < 2 :=
  posterior_covariance_bound
    ({ Rk := 2, Qk := 1 / 2, xk_last := 4, Pk_last := 3 } : TrivialKalmanFilter ℚ) 7
    (show (0 : ℚ) < 2 by norm_num) (show (0 : ℚ) ≤ 1 / 2 by norm_num)
    (show (0 : ℚ) ≤ 3 by norm_num)

end Invariants

/-! ## Frame conditions and relational properties -/

section Frame

variable [Field D]

/-- C14: on the filter `construct 0 0` (zero measurement and process noise),
the first `update zk` has `Sk = 1` and gain `1`, and `get` afterwards returns
exactly `zk`. -/
theorem zero_noise_first_update (zk : D) :
    (updateLocals (construct (0 : D) 0) zk).Sk = 1 ∧
    (updateLocals (construct (0 : D) 0) zk).Kk = 1 ∧
    get (update (construct (0 : D) 0) zk).2 = zk := by
  refine ⟨?_, ?_, ?_⟩
  · rw [updateLocals_Sk]
    simp [construct, resetDefault, reset]
  · rw [updateLocals_Kk]
    simp [construct, resetDefault, reset]
  · rw [get, update_xk_last]
    simp [construct, resetDefault, reset]

/-- C16: no operation changes the noise parameters: after `update` with any
measurement, `reset` with any arguments (or none) and `get`, the fields `Rk`
and `Qk` are what they were before, and so after any sequence of operations on
`construct Rk Qk` they are still the values passed to the constructor. -/
theorem noise_parameters_immutable (f : TrivialKalmanFilter D) (op : Op D) (zk xk Pk : D)
    (Rk Qk : D) (ops : List (Op D)) :
    ((step f op).Rk = f.Rk ∧ (step f op).Qk = f.Qk) ∧
    ((update f zk).2.Rk = f.Rk ∧ (update f zk).2.Qk = f.Qk) ∧
    ((reset f xk Pk).Rk = f.Rk ∧ (reset f xk Pk).Qk = f.Qk) ∧
    ((resetDefault f).Rk = f.Rk ∧ (resetDefault f).Qk = f.Qk) ∧
    ((step f Op.get).Rk = f.Rk ∧ (step f Op.get).Qk = f.Qk) ∧
    ((run (construct Rk Qk) ops).Rk = Rk ∧ (run (construct Rk Qk) ops).Qk = Qk) :=
  ⟨⟨step_Rk f op, step_Qk f op⟩, ⟨rfl, rfl⟩, ⟨rfl, rfl⟩, ⟨rfl, rfl⟩, ⟨rfl, rfl⟩,
    ⟨run_Rk _ ops, run_Qk _ ops⟩⟩

/-- C17: `get` only reads the last committed estimate: it returns `xk_last`
and leaves the filter as it was; right after `update zk` it returns the value
that `update zk` returned, and two calls in a row return the same value. -/
theorem get_is_pure_read (f : TrivialKalmanFilter D) (zk : D) :
    get f = f.xk_last ∧
    step f Op.get = f ∧
    get (update f zk).2 = (update f zk).1 ∧
    get (step f Op.get) = get f :=
  ⟨rfl, rfl, rfl, rfl⟩

theorem updateSeq_Pk_last_congr (f g : TrivialKalmanFilter D) (z z' : ℕ → D)
    (hR : f.Rk = g.Rk) (hQ : f.Qk = g.Qk) (hP : f.Pk_last = g.Pk_last) (n : ℕ) :
    (updateSeq f z n).Pk_last = (updateSeq g z' n).Pk_last := by
  induction n with
  | zero => exact hP
  | succ n ih =>
    rw [updateSeq, updateSeq, update_Pk_last, update_Pk_last, ih, updateSeq_Rk, updateSeq_Rk,
      updateSeq_Qk, updateSeq_Qk, hR, hQ]

/-- C18: two filters with the same `Rk`, `Qk` and `Pk_last`, whatever their
estimates, fed two measurement sequences of the same length `n`, end with the
same `Rk`, `Qk` and `Pk_last`, and compute the same gain at the next step: the
measurements influence `xk_last` only. -/
theorem covariance_independent_of_data (f g : TrivialKalmanFilter D) (z z' : ℕ → D)
    (hR : f.Rk = g.Rk) (hQ : f.Qk = g.Qk) (hP : f.Pk_last = g.Pk_last) (n : ℕ) :
    (updateSeq f z n).Pk_last = (updateSeq g z' n).Pk_last ∧
    (updateLocals (updateSeq f z n) (z n)).Kk = (updateLocals (updateSeq g z' n) (z' n)).Kk ∧
    (updateSeq f z n).Rk = (updateSeq g z' n).Rk ∧
    (updateSeq f z n).Qk = (updateSeq g z' n).Qk := by
  have h := updateSeq_Pk_last_congr f g z z' hR hQ hP n
  refine ⟨h, ?_, ?_, ?_⟩
  · rw [updateLocals_Kk, updateLocals_Kk, h, updateSeq_Rk, updateSeq_Rk, updateSeq_Qk,
      updateSeq_Qk, hR, hQ]
  · rw [updateSeq_Rk, updateSeq_Rk, hR]
  · rw [updateSeq_Qk, updateSeq_Qk, hQ]

/-- C18 at two filters with `Rk = 1/2`, `Qk = 1/4`, `Pk_last = 1`, estimates
`0` and `9`, measurements `1, 2, 3, ...` against the constant `20`, after three
updates. -/
theorem covariance_independent_of_data_witness :
    (updateSeq (construct (1 / 2 : ℚ) (1 / 4)) (fun i => (i : ℚ) + 1) 3).Pk_last =
      (updateSeq (reset (construct (1 / 2 : ℚ) (1 / 4)) 9 1) (fun _ => 20) 3).Pk_last ∧
    (updateLocals (updateSeq (construct (1 / 2 : ℚ) (1 / 4)) (fun i => (i : ℚ) + 1) 3)
        (((3 : ℕ) : ℚ) + 1)).Kk =
      (updateLocals (updateSeq (reset (construct (1 / 2 : ℚ) (1 / 4)) 9 1) (fun _ => 20) 3)
        20).Kk ∧
    (updateSeq (construct (1 / 2 : ℚ) (1 / 4)) (fun i => (i : ℚ) + 1) 3).Rk =
      (updateSeq (reset (construct (1 / 2 : ℚ) (1 / 4)) 9 1) (fun _ => 20) 3).Rk ∧
    (updateSeq (construct (1 / 2 : ℚ) (1 / 4)) (fun i => (i : ℚ) + 1) 3).Qk =
      (updateSeq (reset (construct (1 / 2 : ℚ) (1 / 4)) 9 1) (fun _ => 20) 3).Qk :=
  covariance_independent_of_data (construct (1 / 2) (1 / 4))
    (reset (construct (1 / 2) (1 / 4)) 9 1) (fun i => (i : ℚ) + 1) (fun _ => 20) rfl rfl rfl 3

/-- C20, amended: in exact arithmetic (`D` any field, no rounding and no
overflow), for every `Rk`, `Qk`, covariance `P` (in particular whenever
`Sk = Rk + P + Qk ≠ 0`, where the division is defined), prior estimate `x`,
measurement `zk` and constants `a`, `c`: `update (a * zk + c)` on the state
with estimate
`a * x + c` and covariance `P` returns `a * r + c`, where `r` is what
`update zk` returns on the state with estimate `x` and covariance `P`, and
both runs commit the same error covariance. -/
theorem update_affine_equivariant (Rk Qk P x zk a c : D) :
    (update { Rk := Rk, Qk := Qk, xk_last := a * x + c, Pk_last := P } (a * zk + c)).1 =
      a * (update { Rk := Rk, Qk := Qk, xk_last := x, Pk_last := P } zk).1 + c ∧
    (update { Rk := Rk, Qk := Qk, xk_last := a * x + c, Pk_last := P } (a * zk + c)).2.Pk_last =
      (update { Rk := Rk, Qk := Qk, xk_last := x, Pk_last := P } zk).2.Pk_last := by
  constructor
  · rw [update_fst, update_fst, update_xk_last, update_xk_last]
    ring
  · rw [update_Pk_last, update_Pk_last]

end Frame

/-! ## The same code on binary64 (`D = double`)

The properties of the sections `Order`, `Invariants` and `Frame` that are
proved for exact arithmetic are evaluated here on `F64`, where rounding and
overflow change what the code does. -/

section Binary64

/-- C7, as stated, fails on binary64.  With `Rk = 4`, `Qk = 1`, `v = 20` the
estimate after 73 updates and after 74 updates is the same number
`5629499534213119 * 2^-48`, which differs from `20`, so the distance to `v`
does not strictly decrease.  With `Rk = Qk = 2^1023` the estimate after two
updates is NaN, so the distance after two updates is not at most the distance
after one. -/
theorem monotone_approach_fails_binary64 :
    ((0 : F64) < F64.ofNat 4 ∧ (0 : F64) < F64.ofNat 1 ∧
      get (feed (construct (F64.ofNat 4) (F64.ofNat 1)) (F64.ofNat 20) 73) =
        F64.finite false 5629499534213119 (-48) ∧
      get (feed (construct (F64.ofNat 4) (F64.ofNat 1)) (F64.ofNat 20) (73 + 1)) =
        F64.finite false 5629499534213119 (-48) ∧
      get (feed (construct (F64.ofNat 4) (F64.ofNat 1)) (F64.ofNat 20) 73) ≠ F64.ofNat 20 ∧
      ¬ F64.abs (get (feed (construct (F64.ofNat 4) (F64.ofNat 1)) (F64.ofNat 20) (73 + 1)) -
            F64.ofNat 20) <
          F64.abs (get (feed (construct (F64.ofNat 4) (F64.ofNat 1)) (F64.ofNat 20) 73) -
            F64.ofNat 20)) ∧
    ((0 : F64) < F64.pow2 1023 ∧
      get (feed (construct (F64.pow2 1023) (F64.pow2 1023)) (F64.ofNat 20) (1 + 1)) = F64.nan ∧
      ¬ F64.abs (get (feed (construct (F64.pow2 1023) (F64.pow2 1023)) (F64.ofNat 20) (1 + 1)) -
            F64.ofNat 20) ≤
          F64.abs (get (feed (construct (F64.pow2 1023) (F64.pow2 1023)) (F64.ofNat 20) 1) -
            F64.ofNat 20)) := by
  decide!

/-- C15, as stated, fails on binary64.  Right after `construct (2^-60) 0`
(`Qk = 0`, `Rk > 0`, `Pk_last = 1 > 0`), `update 10` computes
`Sk = 2^-60 + 1`, which rounds to `1`, so the gain is exactly `1`, not below
`1`, and the new estimate is `10` itself although `10` differs from the prior
estimate `0`. -/
theorem partial_move_fails_binary64 :
    (construct (F64.pow2 (-60)) 0).Qk = 0 ∧
    (0 : F64) < (construct (F64.pow2 (-60)) 0).Rk ∧
    (0 : F64) < (construct (F64.pow2 (-60)) 0).Pk_last ∧
    (updateLocals (construct (F64.pow2 (-60)) 0) (F64.ofNat 10)).Sk = 1 ∧
    (updateLocals (construct (F64.pow2 (-60)) 0) (F64.ofNat 10)).Kk = 1 ∧
    ¬ (updateLocals (construct (F64.pow2 (-60)) 0) (F64.ofNat 10)).Kk < 1 ∧
    F64.ofNat 10 ≠ (construct (F64.pow2 (-60)) 0).xk_last ∧
    (update (construct (F64.pow2 (-60)) 0) (F64.ofNat 10)).1 = F64.ofNat 10 ∧
    ¬ (update (construct (F64.pow2 (-60)) 0) (F64.ofNat 10)).1 < F64.ofNat 10 := by
  decide!

/-- C19, as stated, fails on binary64.  Right after
`construct (2^-40) (2^-2)` (`Rk > 0`, `Qk ≥ 0`, `Pk_last = 1 ≥ 0`), `update 20`
commits the covariance `4503874505277440 * 2^-92`, which is larger than
`Rk = 4503599627370496 * 2^-92` and differs from
`Rk * Pk_pred / (Rk + Pk_pred) = 9007199254734438 * 2^-93`. -/
theorem posterior_bound_fails_binary64 :
    (0 : F64) < (construct (F64.pow2 (-40)) (F64.pow2 (-2))).Rk ∧
    (0 : F64) ≤ (construct (F64.pow2 (-40)) (F64.pow2 (-2))).Qk ∧
    (0 : F64) ≤ (construct (F64.pow2 (-40)) (F64.pow2 (-2))).Pk_last ∧
    (construct (F64.pow2 (-40)) (F64.pow2 (-2))).Rk = F64.finite false 4503599627370496 (-92) ∧
    (update (construct (F64.pow2 (-40)) (F64.pow2 (-2))) (F64.ofNat 20)).2.Pk_last =
      F64.finite false 4503874505277440 (-92) ∧
    F64.pow2 (-40) * (1 + F64.pow2 (-2)) / (F64.pow2 (-40) + (1 + F64.pow2 (-2))) =
      F64.finite false 9007199254734438 (-93) ∧
    ¬ (update (construct (F64.pow2 (-40)) (F64.pow2 (-2))) (F64.ofNat 20)).2.Pk_last <
      (construct (F64.pow2 (-40)) (F64.pow2 (-2))).Rk := by
  decide!

/-- C20, as stated, fails on binary64.  With `Rk = 1/2`, `Qk = 1/4`, `P = 1`,
`x = 1`, `zk = 2`, `a = 3`, `c = 1` (so `a * x + c = 4` and `a * zk + c = 7`,
both exact; the states are set by `reset` on `construct (1/2) (1/4)`),
`update 7` on the state with estimate `4` returns
`6916242284890404 * 2^-50`, while `a * r + c` is `6916242284890405 * 2^-50`. -/
theorem affine_equivariance_fails_binary64 :
    F64.ofNat 3 * F64.ofNat 1 + F64.ofNat 1 = F64.ofNat 4 ∧
    F64.ofNat 3 * F64.ofNat 2 + F64.ofNat 1 = F64.ofNat 7 ∧
    (update (reset (construct (F64.pow2 (-1)) (F64.pow2 (-2)))
        (F64.ofNat 3 * F64.ofNat 1 + F64.ofNat 1) (F64.ofNat 1)) (F64.ofNat 3 * F64.ofNat 2 + F64.ofNat 1)).1 =
      F64.finite false 6916242284890404 (-50) ∧
    F64.ofNat 3 * (update (reset (construct (F64.pow2 (-1)) (F64.pow2 (-2)))
        (F64.ofNat 1) (F64.ofNat 1)) (F64.ofNat 2)).1 + F64.ofNat 1 =
      F64.finite false 6916242284890405 (-50) ∧
    (update (reset (construct (F64.pow2 (-1)) (F64.pow2 (-2)))
        (F64.ofNat 3 * F64.ofNat 1 + F64.ofNat 1) (F64.ofNat 1)) (F64.ofNat 3 * F64.ofNat 2 + F64.ofNat 1)).1 ≠
      F64.ofNat 3 * (update (reset (construct (F64.pow2 (-1)) (F64.pow2 (-2)))
        (F64.ofNat 1) (F64.ofNat 1)) (F64.ofNat 2)).1 + F64.ofNat 1 := by
  decide!

end Binary64

end TrivialKalmanFilter
